import Mathlib

/-!
Shallow embedding of the `sewik` repository's core data paths:

* `pkg/dom/stats/attributes.go` — the per-tag attribute frequency map
  (`attributesWithLock.Add/Get/Len`); the mutex only serializes calls, so the
  sequential semantics is the function below.
* `xml/parse/parser.go` — the token-driven tree builder `parse` (and `File`).
  The `encoding/xml` token reader is abstracted as a list of delivered tokens
  followed by the terminal value its next `Token()` call returns (`io.EOF`
  for a clean end of input, any other error otherwise).  Go's pointer-mutated
  `xmldom.Node` tree is represented by a stack of open frames; a node is
  linked into its parent's child list when its frame closes, which yields the
  same final tree as Go's link-at-start followed by in-place mutation.
* `xml/print/elements.go` — the schema printer `Elements`.  The container
  type `spec.Elements` is not part of the given sources; per the spec it is a
  map from tag name to a `{count, attributes, children}` record, so it is
  embedded as an association list, the list order standing for the map
  iteration order that a Go `range` produces.
-/

namespace Sewik

/-! ### `pkg/dom/stats/attributes.go` -/

/-- `dom.Attribute` as used by `attributesWithLock.Add` (field `Name`). -/
structure DomAttribute where
  Name : String
  Value : String
deriving DecidableEq, Repr

/-- `type attributeMap map[string]attribute` (`attribute = int`), as an
association list with unique keys; lookup is Go map indexing. -/
abbrev attributeMap := List (String × Nat)

/-- Go map read `m[n]`. -/
def mapGet : attributeMap → String → Option Nat
  | [], _ => none
  | (k, v) :: rest, n => if k = n then some v else mapGet rest n

/-- Go map write `m[n] = v`: replace the entry for `n`, or insert it. -/
def mapSet : attributeMap → String → Nat → attributeMap
  | [], n, v => [(n, v)]
  | (k, w) :: rest, n, v =>
      if k = n then (n, v) :: rest else (k, w) :: mapSet rest n v

/-- `attributesWithLock.Add`: `x, exists := a.in[n.Name]`; increment when
present, start at 1 otherwise; store back. -/
def Add (m : attributeMap) (n : DomAttribute) : attributeMap :=
  match mapGet m n.Name with
  | some x => mapSet m n.Name (x + 1)
  | none => mapSet m n.Name 1

/-- `attributesWithLock.Get` returns the underlying map. -/
def Get (m : attributeMap) : attributeMap := m

/-- `attributesWithLock.Len` is `len(a.in)`: the number of keys. -/
def Len (m : attributeMap) : Nat := m.length

/-- The state after a sequence of `Add` calls starting from
`newAttributesWithLock()` (an empty map). -/
def addAll (ns : List DomAttribute) : attributeMap := ns.foldl Add []

/-! ### `xml/parse/parser.go` -/

/-- `xml.Name` (`encoding/xml`): `Space`, `Local`. -/
structure XmlName where
  Space : String
  Local : String
deriving DecidableEq, Repr

/-- `xml.Attr`: a name/value pair on a start tag. -/
structure XmlAttr where
  Name : XmlName
  Value : String
deriving DecidableEq, Repr

/-- The tokens `xml.Decoder.Token` can deliver to `parse`'s switch. -/
inductive Token where
  | start (name : XmlName) (attrs : List XmlAttr)
  | endTag (name : XmlName)
  | chardata (data : String)
  | procInst (target : String) (inst : String)
  | directive (data : String)
deriving DecidableEq, Repr

/-- `unicode.IsSpace` on the code points `bytes.TrimSpace` trims. -/
def goIsSpace (c : Char) : Bool :=
  let n := c.toNat
  (9 ≤ n && n ≤ 13) || n == 32 || n == 0x85 || n == 0xA0 || n == 0x1680 ||
    (0x2000 ≤ n && n ≤ 0x200A) || n == 0x2028 || n == 0x2029 ||
    n == 0x202F || n == 0x205F || n == 0x3000

/-- `bytes.TrimSpace`: drop leading and trailing white space. -/
def trimSpace (s : String) : String :=
  ⟨((s.data.dropWhile goIsSpace).reverse.dropWhile goIsSpace).reverse⟩

/-- A finished `xmldom.Node`: name, attributes in order (duplicates kept),
text, children in order.  Parent/Document back-pointers are implicit in the
tree shape. -/
inductive Node where
  | mk (name : String) (attributes : List (String × String))
      (text : String) (children : List Node)

def Node.name : Node → String
  | .mk n _ _ _ => n

def Node.attributes : Node → List (String × String)
  | .mk _ a _ _ => a

def Node.text : Node → String
  | .mk _ _ t _ => t

def Node.children : Node → List Node
  | .mk _ _ _ c => c

/-- An open element: the still-mutable `xmldom.Node` the cursor `e` or one of
its ancestors points at.  `isRoot` records that `doc.Root` was set to this
node when its start tag was read. -/
structure Frame where
  name : String
  attributes : List (String × String)
  text : String
  children : List Node
  isRoot : Bool

/-- Materialize an open frame as the node it has built so far. -/
def Frame.toNode (f : Frame) : Node :=
  .mk f.name f.attributes f.text f.children

/-- `xmldom.Document`: root (nil when no start element was rooted),
`ProcInst`, `Directives`. -/
structure Document where
  root : Option Node
  ProcInst : String
  Directives : List String

/-- The loop state of `parse`: the chain of open nodes from the cursor `e` up
to the top level (head = innermost), plus the completed `doc.Root` if the
rooted node has already closed, plus the document-level strings. -/
structure PState where
  stack : List Frame
  rootDone : Option Node
  procInst : String
  directives : List String

/-- `doc.Root == nil`: no completed root and no open frame was rooted. -/
def rootIsNil (st : PState) : Bool :=
  st.rootDone.isNone && st.stack.all (fun f => !f.isRoot)

/-- Errors as `parse` distinguishes them: `io.EOF` versus anything else. -/
inductive GoErr where
  | eof
  | other (msg : String)
deriving DecidableEq, Repr

/-- The outcome of `parse`: a Go panic (nil-pointer dereference), or the pair
`(*xmldom.Document, error)` it returns. -/
inductive ParseResult where
  | panic
  | ret (doc : Option Document) (err : Option GoErr)

/-- `fmt.Sprintf("<?%s %s?>", pi.Target, string(pi.Inst))`. -/
def stringifyProcInst (target inst : String) : String :=
  "<?" ++ target ++ " " ++ inst ++ "?>"

/-- `fmt.Sprintf("<!%s>", string(*directive))`. -/
def stringifyDirective (data : String) : String :=
  "<!" ++ data ++ ">"

/-- One iteration of `parse`'s switch.  `none` models the nil-pointer
dereference panic of `e = e.Parent` when `e` is nil. -/
def step (st : PState) : Token → Option PState
  | .start nm attrs =>
      let fr : Frame :=
        ⟨nm.Local, attrs.map (fun a => (a.Name.Local, a.Value)), "", [],
          rootIsNil st⟩
      some { st with stack := fr :: st.stack }
  | .endTag _ =>
      match st.stack with
      | [] => none
      | f :: rest =>
          let nd := f.toNode
          let rd := if f.isRoot then some nd else st.rootDone
          match rest with
          | [] => some { st with stack := [], rootDone := rd }
          | g :: gs =>
              some { st with
                stack := { g with children := g.children ++ [nd] } :: gs,
                rootDone := rd }
  | .chardata s =>
      match st.stack with
      | [] => some st
      | f :: rest =>
          some { st with stack := { f with text := trimSpace s } :: rest }
  | .procInst target inst =>
      some { st with procInst := stringifyProcInst target inst }
  | .directive s =>
      some { st with directives := st.directives ++ [stringifyDirective s] }

/-- Fold the open frames into each other, innermost first, until the rooted
one is materialized; `pending` is the materialization of the frames already
absorbed, to be appended as the last child of the next frame. -/
def finStackAux : List Frame → Option Node → Option Node
  | [], _ => none
  | f :: rest, pending =>
      let fr : Frame := match pending with
        | none => f
        | some nd => { f with children := f.children ++ [nd] }
      if fr.isRoot then some fr.toNode else finStackAux rest (some fr.toNode)

/-- At end of input the rooted node may still be open: materialize it from
the stack of open frames. -/
def finStack (fs : List Frame) : Option Node := finStackAux fs none

/-- The `*xmldom.Document` visible when the loop stops. -/
def mkDoc (st : PState) : Document :=
  { root := match st.rootDone with
      | some r => some r
      | none => finStack st.stack,
    ProcInst := st.procInst,
    Directives := st.directives }

/-- `parse`'s token loop: consume delivered tokens; when the reader's next
call returns `(nil, err)` the loop exits and `parse` checks `err != io.EOF`. -/
def run : PState → List Token → GoErr → ParseResult
  | st, [], fin =>
      if fin = .eof then .ret (some (mkDoc st)) none else .ret none (some fin)
  | st, t :: rest, fin =>
      match step st t with
      | none => .panic
      | some st' => run st' rest fin

def initState : PState := ⟨[], none, "", []⟩

/-- `parse(r)`: the first `Token()` call is checked separately — with no
token to deliver it yields the terminal value at once and `parse` returns
`nil, err` even when that value is `io.EOF`. -/
def parse (toks : List Token) (fin : GoErr) : ParseResult :=
  match toks with
  | [] => .ret none (some fin)
  | _ => run initState toks fin

/-- `File(filename)`: `os.Open` either fails with an I/O error or yields a
reader, which `parse` then consumes. -/
def file (opened : Option (List Token × GoErr)) (openErr : GoErr) : ParseResult :=
  match opened with
  | none => .ret none (some openErr)
  | some (toks, fin) => parse toks fin

/-! ### `xml/print/elements.go` -/

/-- The character `fmt`'s `%d` writes for one decimal digit. -/
def digitChar (d : Nat) : Char := Char.ofNat (48 + d)

/-- Decimal digits of `n`, most significant first; `fuel` bounds the
recursion depth and `n + 1` always suffices. -/
def natCharsAux : Nat → Nat → List Char
  | 0, _ => []
  | fuel + 1, n =>
      if n < 10 then [digitChar n]
      else natCharsAux fuel (n / 10) ++ [digitChar (n % 10)]

/-- `%d` on a non-negative integer. -/
def natStr (n : Nat) : String := ⟨natCharsAux (n + 1) n⟩

/-- `strings.Repeat("  ", l)`. -/
def indentStr : Nat → String
  | 0 => ""
  | l + 1 => "  " ++ indentStr l

/-- One record of the aggregate tree as the printer reads it: `Cn` the
occurrence count, `At` the attribute name → count map, `El` the child
elements map.  The maps are association lists; the list order is the
iteration order the Go `range` happens to produce. -/
inductive ElementStat where
  | mk (Cn : Nat) (At : List (String × Nat)) (El : List (String × ElementStat))

def ElementStat.Cn : ElementStat → Nat
  | .mk c _ _ => c

def ElementStat.At : ElementStat → List (String × Nat)
  | .mk _ a _ => a

def ElementStat.El : ElementStat → List (String × ElementStat)
  | .mk _ _ e => e

/-- Modelled from the spec: the `print.Attributes` helper (its source file is
not among the given sources) — "Emit attribute annotations from
`stat.attributes.Get()`", one chunk per attribute name/count pair. -/
def printAttributes (At : List (String × Nat)) : List String :=
  At.map (fun p => " " ++ p.1 ++ "=\"" ++ natStr p.2 ++ "\"")

/-- `print.Elements(elems, l, c)`.  Each `fmt.Print`/`Printf` call emits one
chunk; the output of a run is the concatenation of the chunks.  The
association-list argument carries the `(tagName, stat)` pairs of
`elems.Get()` in the order the `range` enumerates them. -/
def printElements : List (String × ElementStat) → Nat → Nat → List String
  | [], _, _ => []
  | (k, .mk cn At el) :: rest, l, c =>
      ("\n" ++ indentStr l ++ "<" ++ k)
        :: (" _count=\"" ++ natStr cn ++ "\"")
        :: ((if cn < c then [" _optional=\"true\""] else [])
          ++ printAttributes At
          ++ (if el.length > 0 then
                ">" :: (printElements el (l + 1) cn
                  ++ ["\n" ++ indentStr l ++ "</" ++ k ++ ">"])
              else [" />"])
          ++ printElements rest l c)
termination_by elems _ _ => sizeOf elems
decreasing_by
  all_goals simp_wf
  all_goals omega


/-! ### Auxiliary definitions used by the verification -/

/-- Keys of an association list, in order (the key set of the Go map). -/
def keysOf (m : attributeMap) : List String := m.map Prod.fst

/-- Start or end tags: the tokens a document with zero elements never
contains. -/
def isTagToken : Token → Bool
  | .start _ _ => true
  | .endTag _ => true
  | _ => false

/-! ### Lemmas and verified claims -/

lemma mapGet_mapSet (m : attributeMap) (n : String) (v : Nat) (x : String) :
    mapGet (mapSet m n v) x = if n = x then some v else mapGet m x := by
  induction m with
  | nil => simp [mapSet, mapGet]
  | cons p rest ih =>
    obtain ⟨k, w⟩ := p
    by_cases hk : k = n
    · subst hk
      by_cases hx : k = x <;> simp [mapSet, mapGet, hx]
    · simp only [mapSet, if_neg hk]
      by_cases hx : k = x
      · by_cases hnx : n = x
        · exact absurd (hx.trans hnx.symm) hk
        · simp [mapGet, hx, hnx]
      · by_cases hnx : n = x
        · subst hnx; simp [mapGet, hx, ih]
        · simp [mapGet, hx, hnx, ih]

lemma mapGet_none_iff (m : attributeMap) (n : String) :
    mapGet m n = none ↔ n ∉ keysOf m := by
  induction m with
  | nil => simp [mapGet, keysOf]
  | cons p rest ih =>
    obtain ⟨k, w⟩ := p
    by_cases h : k = n
    · subst h; simp [mapGet, keysOf]
    · simp [mapGet, keysOf, h, ih, show n ≠ k from fun hh => h hh.symm]

lemma keysOf_mapSet_found (m : attributeMap) (n : String) (v : Nat) :
    (mapGet m n).isSome → keysOf (mapSet m n v) = keysOf m := by
  induction m with
  | nil => simp [mapGet]
  | cons p rest ih =>
    obtain ⟨k, w⟩ := p
    intro h
    by_cases hk : k = n
    · subst hk; simp [mapSet, keysOf]
    · have h' : (mapGet rest n).isSome := by simpa [mapGet, hk] using h
      simp [mapSet, hk, keysOf] at ih ⊢
      exact ih h'

lemma mapSet_missing (m : attributeMap) (n : String) (v : Nat) :
    mapGet m n = none → mapSet m n v = m ++ [(n, v)] := by
  induction m with
  | nil => simp [mapSet]
  | cons p rest ih =>
    obtain ⟨k, w⟩ := p
    intro h
    by_cases hk : k = n
    · subst hk; simp [mapGet] at h
    · simp [mapGet, hk] at h
      simp [mapSet, hk, ih h]

lemma mapGet_Add (m : attributeMap) (a : DomAttribute) (x : String) :
    mapGet (Add m a) x =
      if a.Name = x then some ((mapGet m a.Name).getD 0 + 1) else mapGet m x := by
  unfold Add
  cases h : mapGet m a.Name <;> simp [h, mapGet_mapSet]

lemma keysOf_Add (m : attributeMap) (a : DomAttribute) :
    keysOf (Add m a) =
      if (mapGet m a.Name).isSome then keysOf m else keysOf m ++ [a.Name] := by
  unfold Add
  cases h : mapGet m a.Name with
  | none => simp [h, mapSet_missing m _ _ h, keysOf]
  | some v => simp [keysOf_mapSet_found m a.Name (v + 1) (by simp [h])]

lemma nodup_keysOf_Add (m : attributeMap) (a : DomAttribute)
    (h : (keysOf m).Nodup) : (keysOf (Add m a)).Nodup := by
  rw [keysOf_Add]
  cases hg : mapGet m a.Name with
  | none =>
    have : a.Name ∉ keysOf m := (mapGet_none_iff m a.Name).mp hg
    simp [List.nodup_append, h, this]
  | some v => simp [h]

lemma mapGet_foldl (ns : List DomAttribute) :
    ∀ (m : attributeMap) (x : String),
      mapGet (ns.foldl Add m) x =
        match mapGet m x with
        | some k => some (k + (ns.map DomAttribute.Name).count x)
        | none =>
            if (ns.map DomAttribute.Name).count x = 0 then none
            else some ((ns.map DomAttribute.Name).count x) := by
  induction ns with
  | nil => intro m x; cases h : mapGet m x <;> simp [h]
  | cons a rest ih =>
    intro m x
    rw [List.foldl_cons, ih]
    by_cases hx : a.Name = x
    · rw [mapGet_Add, if_pos hx, ← hx]
      cases h : mapGet m a.Name <;>
        simp [h, List.count_cons, hx] <;> omega
    · rw [mapGet_Add, if_neg hx]
      cases h : mapGet m x <;> simp [h, List.count_cons, hx]

lemma keys_mem_foldl (ns : List DomAttribute) :
    ∀ (m : attributeMap) (x : String),
      x ∈ keysOf (ns.foldl Add m) ↔ x ∈ keysOf m ∨ x ∈ ns.map DomAttribute.Name := by
  induction ns with
  | nil => simp
  | cons a rest ih =>
    intro m x
    rw [List.foldl_cons, ih, keysOf_Add]
    cases h : mapGet m a.Name with
    | none => simp [List.mem_append]; tauto
    | some v =>
      have hmem : a.Name ∈ keysOf m := by
        by_contra hc
        rw [← mapGet_none_iff] at hc
        simp [h] at hc
      simp only [if_pos (by simp [h] : (mapGet m a.Name).isSome), List.map_cons,
        List.mem_cons]
      constructor
      · tauto
      · rintro (hl | hr | hr)
        · left; exact hl
        · rw [hr]; left; exact hmem
        · right; exact hr

lemma nodup_keys_foldl (ns : List DomAttribute) :
    ∀ (m : attributeMap), (keysOf m).Nodup → (keysOf (ns.foldl Add m)).Nodup := by
  induction ns with
  | nil => intro m h; exact h
  | cons a rest ih => intro m h; exact ih _ (nodup_keysOf_Add m a h)


/-- C2: after any sequence of `Add` calls starting from a fresh attribute
map, `Get` maps each attribute name to exactly the number of `Add` calls
made with that name (first occurrence 1, each later one +1, names never
added absent), and `Len` returns the number of distinct names added. -/
theorem attributes_add_counts (ns : List DomAttribute) (x : String) :
    mapGet (Get (addAll ns)) x =
      (if (ns.map DomAttribute.Name).count x = 0 then none
       else some ((ns.map DomAttribute.Name).count x))
    ∧ Len (addAll ns) = (ns.map DomAttribute.Name).toFinset.card := by
  constructor
  · rw [show Get (addAll ns) = addAll ns from rfl, addAll, mapGet_foldl]
    simp [mapGet]
  · have hnd : (keysOf (addAll ns)).Nodup := nodup_keys_foldl ns [] (by simp [keysOf])
    have hlen : Len (addAll ns) = (keysOf (addAll ns)).length := by
      simp [Len, keysOf]
    rw [hlen, ← List.toFinset_card_of_nodup hnd]
    congr 1
    ext y
    simp only [List.mem_toFinset]
    rw [addAll, keys_mem_foldl]
    simp [keysOf]

lemma run_no_tags (toks : List Token) :
    ∀ st : PState, st.stack = [] → st.rootDone = none →
      (∀ t ∈ toks, isTagToken t = false) →
      ∃ d, run st toks GoErr.eof = .ret (some d) none ∧ d.root = none := by
  induction toks with
  | nil =>
    intro st h1 h2 _
    exact ⟨mkDoc st, by simp [run], by simp [mkDoc, h1, h2, finStack, finStackAux]⟩
  | cons t rest ih =>
    intro st h1 h2 hall
    have ht := hall t (by simp)
    cases t with
    | start nm attrs => simp [isTagToken] at ht
    | endTag nm => simp [isTagToken] at ht
    | chardata s =>
      have : step st (.chardata s) = some st := by simp [step, h1]
      rw [run, this]
      exact ih st h1 h2 (fun u hu => hall u (by simp [hu]))
    | procInst target inst =>
      rw [run, show step st (.procInst target inst)
        = some { st with procInst := stringifyProcInst target inst } from rfl]
      exact ih _ (by simp [h1]) (by simp [h2]) (fun u hu => hall u (by simp [hu]))
    | directive dd =>
      rw [run, show step st (.directive dd)
        = some { st with directives := st.directives ++ [stringifyDirective dd] } from rfl]
      exact ih _ (by simp [h1]) (by simp [h2]) (fun u hu => hall u (by simp [hu]))

lemma run_err_none_doc (toks : List Token) :
    ∀ (st : PState) (fin : GoErr) (d : Option Document) (e : GoErr),
      run st toks fin = .ret d (some e) → d = none ∧ e = fin := by
  induction toks with
  | nil =>
    intro st fin d e h
    by_cases hf : fin = GoErr.eof <;> simp [run, hf] at h
    exact ⟨h.1.symm, h.2.symm⟩
  | cons t rest ih =>
    intro st fin d e h
    rw [run] at h
    cases hs : step st t with
    | none => rw [hs] at h; simp at h
    | some st2 => rw [hs] at h; exact ih st2 fin d e h

lemma run_not_panic_err (toks : List Token) :
    ∀ (st : PState) (fin : GoErr), fin ≠ GoErr.eof →
      run st toks fin ≠ .panic → run st toks fin = .ret none (some fin) := by
  induction toks with
  | nil => intro st fin hf _; simp [run, hf]
  | cons t rest ih =>
    intro st fin hf hnp
    rw [run] at hnp ⊢
    cases hs : step st t with
    | none => rw [hs] at hnp; exact absurd rfl hnp
    | some st2 => rw [hs] at hnp; exact ih st2 fin hf hnp


/-- C4 (amended): for every input whose reader delivers at least one token,
none of which is a start or end element (only character data, processing
instructions or directives), and then reports clean end of input, `parse`
returns a `Document` whose root is null together with a nil error.  The
amendment: the claim's "including an empty byte stream" fails — with no
token at all the first `Token()` call already reports `io.EOF` and `parse`
returns `nil, err` (see the counterexample below). -/
theorem parse_no_elements_null_root (toks : List Token)
    (hne : toks ≠ []) (hall : ∀ t ∈ toks, isTagToken t = false) :
    ∃ d, parse toks GoErr.eof = ParseResult.ret (some d) none ∧ d.root = none := by
  obtain ⟨t, rest, rfl⟩ : ∃ t rest, toks = t :: rest := by
    cases toks with
    | nil => exact absurd rfl hne
    | cons t rest => exact ⟨t, rest, rfl⟩
  rw [show parse (t :: rest) GoErr.eof = run initState (t :: rest) GoErr.eof from rfl]
  exact run_no_tags _ initState rfl rfl hall

/-- C4 counterexample: on the empty byte stream the first `Token()` call
reports `io.EOF` and `parse` returns the nil document with that error —
not a `Document` with a null root and a nil error as claimed. -/
theorem parse_empty_stream_errors :
    parse [] GoErr.eof = ParseResult.ret none (some GoErr.eof)
    ∧ ∀ d : Document, ParseResult.ret none (some GoErr.eof) ≠ ParseResult.ret (some d) none := by
  refine ⟨rfl, fun d h => ?_⟩
  simp at h

theorem parse_no_elements_null_root_witness :
    ∃ d, parse [Token.procInst "xml" "version=\"1.0\""] GoErr.eof
      = ParseResult.ret (some d) none ∧ d.root = none :=
  parse_no_elements_null_root _ (by simp) (by intro t ht; simp at ht; simp [ht, isTagToken])


/-- C5 (amended): whenever the token reader reports a read error other than
clean `io.EOF` (and the delivered tokens do not make the loop crash),
`parse` fails and returns that underlying reader error value unchanged —
bare, not wrapped in any `ParseError` type (no such wrapper exists in the
code: every failure path is a plain `return nil, err`). -/
theorem parse_read_error_bare (toks : List Token) (fin : GoErr)
    (hf : fin ≠ GoErr.eof) (hnp : parse toks fin ≠ ParseResult.panic) :
    parse toks fin = ParseResult.ret none (some fin) := by
  cases toks with
  | nil => rfl
  | cons t rest =>
    rw [show parse (t :: rest) fin = run initState (t :: rest) fin from rfl] at hnp ⊢
    exact run_not_panic_err _ initState fin hf hnp

theorem parse_read_error_bare_witness :
    parse [Token.start ⟨"", "a"⟩ []] (GoErr.other "unexpected EOF")
      = ParseResult.ret none (some (GoErr.other "unexpected EOF")) :=
  parse_read_error_bare _ _ (by simp) (by intro h; rw [show parse [Token.start ⟨"", "a"⟩ []] (GoErr.other "unexpected EOF") = run (⟨[⟨"a", [], "", [], true⟩], none, "", []⟩ : PState) [] (GoErr.other "unexpected EOF") from rfl] at h; simp [run] at h)

/-- C5 counterexample: a reader failing at once with a non-EOF error makes
`parse` return exactly that underlying error value, bare — contradicting
the claim that a wrapping `ParseError` is returned. -/
theorem parse_error_returned_bare :
    parse [] (GoErr.other "boom") = ParseResult.ret none (some (GoErr.other "boom")) := rfl


/-- C6 (amended): if an end-tag token is delivered while no node is
currently open, the token loop of `parse` crashes — `e = e.Parent`
dereferences the nil cursor, a Go panic — instead of returning a
`StructuralError`; no such error type exists in the code, which trusts the
`encoding/xml` reader never to deliver such a token. -/
theorem run_end_tag_empty_stack_panics (st : PState) (nm : XmlName)
    (rest : List Token) (fin : GoErr) (h : st.stack = []) :
    run st (Token.endTag nm :: rest) fin = ParseResult.panic := by
  rw [run, show step st (Token.endTag nm) = none by simp [step, h]]

theorem run_end_tag_empty_stack_panics_witness :
    run initState [Token.endTag ⟨"", "a"⟩] GoErr.eof = ParseResult.panic :=
  run_end_tag_empty_stack_panics initState ⟨"", "a"⟩ [] GoErr.eof rfl

/-- C6 counterexample: an end-tag delivered as the first token makes
`parse` crash (nil-pointer panic) — it does not return a
`StructuralError`. -/
theorem parse_end_tag_no_open_node_panics :
    parse [Token.endTag ⟨"", "a"⟩] GoErr.eof = ParseResult.panic := rfl

/-- C7: on a character-data token received while a node is open, `parse`
sets that node's text to the token with leading and trailing whitespace
trimmed, leaving everything else unchanged, and a later character-data
token on the same open node unconditionally overwrites the earlier value,
so only the last text run delivered directly inside an element is kept. -/
theorem parse_chardata_sets_trimmed_text (st : PState) (f : Frame)
    (fs : List Frame) (s1 s2 : String) (h : st.stack = f :: fs) :
    step st (.chardata s1)
      = some { st with stack := { f with text := trimSpace s1 } :: fs }
    ∧ (step st (.chardata s1)).bind (fun st2 => step st2 (.chardata s2))
      = some { st with stack := { f with text := trimSpace s2 } :: fs } := by
  constructor
  · simp [step, h]
  · simp [step, h]

theorem parse_chardata_sets_trimmed_text_witness :
    step ⟨[⟨"a", [], "", [], true⟩], none, "", []⟩ (.chardata " x ")
      = some ⟨[⟨"a", [], "x", [], true⟩], none, "", []⟩
    ∧ (step ⟨[⟨"a", [], "", [], true⟩], none, "", []⟩ (.chardata " x ")).bind
        (fun st2 => step st2 (.chardata "\n y\t"))
      = some ⟨[⟨"a", [], "y", [], true⟩], none, "", []⟩ := by
  have h := parse_chardata_sets_trimmed_text ⟨[⟨"a", [], "", [], true⟩], none, "", []⟩
    ⟨"a", [], "", [], true⟩ [] " x " "\n y\t" rfl
  refine ⟨?_, ?_⟩
  · rw [h.1]; rfl
  · rw [h.2]; rfl


/-- C8: on a start-tag token `parse` creates a new node carrying the tag's
local name and all of its attributes as (name, value) pairs in original
order with duplicates kept; when a node is open, the new element is linked
as the last child of that node (visible once its end tag closes it); when
no node is open and no root has been set, the new element becomes the
document root. -/
theorem parse_start_element (st stp str : PState) (nm : XmlName)
    (attrs : List XmlAttr) (g : Frame) (gs : List Frame) (en : XmlName)
    (hp : stp.stack = g :: gs) (hnr : rootIsNil stp = false)
    (hr1 : str.stack = []) (hr2 : str.rootDone = none) :
    step st (.start nm attrs) = some { st with stack :=
        ⟨nm.Local, attrs.map (fun a => (a.Name.Local, a.Value)), "", [],
          rootIsNil st⟩ :: st.stack }
    ∧ (step stp (.start nm attrs)).bind (fun s2 => step s2 (.endTag en))
      = some { stp with stack :=
          { g with children := g.children
              ++ [Node.mk nm.Local (attrs.map fun a => (a.Name.Local, a.Value))
                    "" []] } :: gs }
    ∧ (∃ d, run str [.start nm attrs] GoErr.eof = .ret (some d) none
        ∧ d.root = some (Node.mk nm.Local
            (attrs.map fun a => (a.Name.Local, a.Value)) "" [])) := by
  refine ⟨rfl, ?_, ?_⟩
  · simp only [step, Option.bind_some, hp, hnr]
    simp [Frame.toNode]
  · have hroot : rootIsNil str = true := by simp [rootIsNil, hr1, hr2]
    refine ⟨mkDoc { str with stack :=
      [⟨nm.Local, attrs.map (fun a => (a.Name.Local, a.Value)), "", [], true⟩] }, ?_, ?_⟩
    · simp [run, step, hroot, hr1]
    · simp [mkDoc, hr2, finStack, finStackAux, Frame.toNode]

theorem parse_start_element_witness :
    (step initState (.start ⟨"", "a"⟩ [⟨⟨"", "id"⟩, "1"⟩, ⟨⟨"", "id"⟩, "2"⟩])
      = some { initState with stack :=
          ⟨"a", [("id", "1"), ("id", "2")], "", [], true⟩ :: initState.stack })
    ∧ ((step (⟨[⟨"r", [], "", [], true⟩], none, "", []⟩ : PState)
          (.start ⟨"", "a"⟩ [⟨⟨"", "id"⟩, "1"⟩, ⟨⟨"", "id"⟩, "2"⟩])).bind
        (fun s2 => step s2 (.endTag ⟨"", "a"⟩))
      = some ⟨[⟨"r", [], "",
          [Node.mk "a" [("id", "1"), ("id", "2")] "" []], true⟩], none, "", []⟩)
    ∧ (∃ d, run initState [.start ⟨"", "a"⟩ [⟨⟨"", "id"⟩, "1"⟩, ⟨⟨"", "id"⟩, "2"⟩]]
          GoErr.eof = .ret (some d) none
        ∧ d.root = some (Node.mk "a" [("id", "1"), ("id", "2")] "" [])) := by
  have h := parse_start_element initState
    (⟨[⟨"r", [], "", [], true⟩], none, "", []⟩ : PState) initState
    ⟨"", "a"⟩ [⟨⟨"", "id"⟩, "1"⟩, ⟨⟨"", "id"⟩, "2"⟩]
    ⟨"r", [], "", [], true⟩ [] ⟨"", "a"⟩ rfl rfl rfl rfl
  exact ⟨h.1, h.2.1, h.2.2⟩


lemma parse_ret_err (toks : List Token) (fin : GoErr) (d : Option Document)
    (e : GoErr) (h : parse toks fin = ParseResult.ret d (some e)) : d = none := by
  cases toks with
  | nil =>
    simp only [parse] at h
    injection h with h1 h2
    exact h1.symm
  | cons t rest => exact (run_err_none_doc _ initState fin d e h).1

/-- C10: whenever `parse` (or `File`) returns with a non-nil error, the
returned document is nil — no partially built document accompanies an
error. -/
theorem parse_error_implies_nil_document (toks : List Token) (fin : GoErr)
    (opened : Option (List Token × GoErr)) (oe : GoErr)
    (d d2 : Option Document) (e e2 : GoErr)
    (h1 : parse toks fin = ParseResult.ret d (some e))
    (h2 : file opened oe = ParseResult.ret d2 (some e2)) :
    d = none ∧ d2 = none := by
  refine ⟨parse_ret_err toks fin d e h1, ?_⟩
  cases opened with
  | none =>
    simp only [file] at h2
    injection h2 with h3 h4
    exact h3.symm
  | some p =>
    obtain ⟨toks2, fin2⟩ := p
    exact parse_ret_err toks2 fin2 d2 e2 h2

theorem parse_error_implies_nil_document_witness :
    (none : Option Document) = none ∧ (none : Option Document) = none :=
  parse_error_implies_nil_document [] (GoErr.other "read failed") none
    (GoErr.other "open failed") none none (GoErr.other "read failed")
    (GoErr.other "open failed") rfl rfl

lemma digitChar_lt (d : Nat) (h : d < 10) : (digitChar d).toNat = 48 + d := by
  interval_cases d <;> decide

lemma digitChar_ne_e (d : Nat) (h : d < 10) : digitChar d ≠ 'e' := by
  interval_cases d <;> decide

lemma natCharsAux_getLast (fuel n : Nat) (h : 0 < fuel) :
    ∃ d, d < 10 ∧ (natCharsAux fuel n).getLast? = some (digitChar d) := by
  match fuel, h with
  | f + 1, _ =>
    by_cases hn : n < 10
    · exact ⟨n, hn, by simp [natCharsAux, hn]⟩
    · exact ⟨n % 10, Nat.mod_lt _ (by omega),
        by simp [natCharsAux, hn, List.getLast?_concat]⟩

lemma attr_chunk_ne_opt (a : String) (n : Nat) :
    " " ++ a ++ "=\"" ++ natStr n ++ "\"" ≠ " _optional=\"true\"" := by
  intro h
  have hd := congrArg String.data h
  simp only [String.data_append] at hd
  have h1 : (" ".data ++ a.data ++ "=\"".data ++ (natStr n).data) ++ "\"".data
      = " _optional=\"true".data ++ "\"".data := by
    simpa using hd
  have h2 : " ".data ++ a.data ++ "=\"".data ++ (natStr n).data
      = " _optional=\"true".data := by
    have hq : "\"".data = ['"'] := rfl
    rw [hq] at h1
    exact List.append_inj_left' h1 rfl
  obtain ⟨d, hd10, hlast⟩ := natCharsAux_getLast (n + 1) n (by omega)
  have hne : (natStr n).data ≠ [] := by
    intro hnil
    rw [show (natStr n).data = natCharsAux (n + 1) n from rfl] at hnil
    rw [hnil] at hlast; simp at hlast
  have hl : (" ".data ++ a.data ++ "=\"".data ++ (natStr n).data).getLast?
      = some (digitChar d) := by
    rw [List.getLast?_append_of_ne_nil _ hne]
    exact hlast
  rw [h2] at hl
  have he : (" _optional=\"true".data).getLast? = some 'e' := by decide
  rw [he] at hl
  exact digitChar_ne_e d hd10 (by injection hl with hv; exact hv.symm)

lemma firstChar_ne {s t : String} (h : s.data.head? ≠ t.data.head?) : s ≠ t :=
  fun e => h (by rw [e])

lemma attr_chunk_mem {At : List (String × Nat)} {x : String}
    (h : x ∈ printAttributes At) :
    ∃ p : String × Nat, x = " " ++ p.1 ++ "=\"" ++ natStr p.2 ++ "\"" := by
  simp only [printAttributes, List.mem_map] at h
  obtain ⟨p, _, hp⟩ := h
  exact ⟨p, hp.symm⟩

lemma attr_chunk_head {a : String} {n : Nat} :
    (" " ++ a ++ "=\"" ++ natStr n ++ "\"").data.head? = some ' ' := by
  simp [String.data_append]


/-- C1: in the schema printer, the element rendered for a `(tagName, stat)`
pair under enclosing count `c` carries the ` _optional="true"` annotation
(the third emitted chunk) exactly when `stat.Cn < c`, and when the children
map is non-empty the emitted child block is the recursive rendering of the
children with `parentCount = stat.Cn` — so a child occurring as often as
its parent carries no marker and one occurring strictly fewer times does. -/
theorem print_optional_marker (k : String) (cn : Nat) (At : List (String × Nat))
    (el rest : List (String × ElementStat)) (l c : Nat) :
    (((printElements ((k, .mk cn At el) :: rest) l c).get? 2
        = some " _optional=\"true\"") ↔ cn < c)
    ∧ (el.length > 0 → ∃ pre post, printElements ((k, .mk cn At el) :: rest) l c
        = pre ++ printElements el (l + 1) cn ++ post) := by
  constructor
  · rw [printElements]
    by_cases hlt : cn < c
    · simp [hlt]
    · simp only [if_neg hlt, List.nil_append]
      cases hAt : At with
      | nil =>
        by_cases hel : el.length > 0 <;> simp [printAttributes, hel, hlt]
      | cons p At2 =>
        simp only [List.get?]
        constructor
        · intro hc
          have hmem : (" " ++ p.1 ++ "=\"" ++ natStr p.2 ++ "\"") = " _optional=\"true\"" := by
            simpa [printAttributes] using hc
          exact absurd hmem (attr_chunk_ne_opt _ _)
        · intro hc; exact absurd hc hlt
  · intro hel
    refine ⟨("\n" ++ indentStr l ++ "<" ++ k)
        :: (" _count=\"" ++ natStr cn ++ "\"")
        :: ((if cn < c then [" _optional=\"true\""] else [])
          ++ printAttributes At ++ [">"]),
      ("\n" ++ indentStr l ++ "</" ++ k ++ ">") :: printElements rest l c, ?_⟩
    rw [printElements]
    simp [if_pos hel]

theorem print_optional_marker_witness :
    (((printElements [("b", .mk 7 [] [("x", .mk 5 [] [])])] 0 10).get? 2
        = some " _optional=\"true\"") ↔ 7 < 10)
    ∧ (∃ pre post, printElements [("b", .mk 7 [] [("x", .mk 5 [] [])])] 0 10
        = pre ++ printElements [("x", ElementStat.mk 5 [] [])] (0 + 1) 7 ++ post) := by
  have h := print_optional_marker "b" 7 [] [("x", .mk 5 [] [])] [] 0 10
  exact ⟨h.1, h.2 (by decide)⟩


lemma indentStr_length (l : Nat) : (indentStr l).length = 2 * l := by
  induction l with
  | zero => rfl
  | succ n ih =>
    have h2 : ("  " : String).length = 2 := rfl
    rw [indentStr, String.length_append, ih, h2]
    omega

lemma open_chunk_head (l : Nat) (k : String) :
    ("\n" ++ indentStr l ++ "<" ++ k).data.head? = some '\n' := by
  simp [String.data_append]

lemma close_chunk_head (l : Nat) (k : String) :
    ("\n" ++ indentStr l ++ "</" ++ k ++ ">").data.head? = some '\n' := by
  simp [String.data_append]

lemma count_chunk_head (n : Nat) :
    (" _count=\"" ++ natStr n ++ "\"").data.head? = some ' ' := by
  simp [String.data_append]

lemma open_ne_close (l : Nat) (k : String) :
    ("\n" ++ indentStr l ++ "<" ++ k) ≠ ("\n" ++ indentStr l ++ "</" ++ k ++ ">") := by
  intro h
  have hlen := congrArg String.length h
  simp only [String.length_append] at hlen
  have h1 : String.length "<" = 1 := rfl
  have h2 : String.length "</" = 2 := rfl
  have h3 : String.length ">" = 1 := rfl
  omega


/-- C9: an element whose children map is empty is emitted as a self-closing
leaf — its own chunks are exactly the opening header, the count annotation,
the optionality marker when due, the attribute annotations and the leaf
marker " />"; the child-block opener ">" and the closing tag are never
among them. -/
theorem print_leaf_self_closing (k : String) (cn : Nat)
    (At : List (String × Nat)) (rest : List (String × ElementStat)) (l c : Nat) :
    printElements ((k, .mk cn At []) :: rest) l c
      = (("\n" ++ indentStr l ++ "<" ++ k)
          :: (" _count=\"" ++ natStr cn ++ "\"")
          :: ((if cn < c then [" _optional=\"true\""] else [])
            ++ (printAttributes At ++ [" />"])))
        ++ printElements rest l c
    ∧ ">" ∉ (("\n" ++ indentStr l ++ "<" ++ k)
          :: (" _count=\"" ++ natStr cn ++ "\"")
          :: ((if cn < c then [" _optional=\"true\""] else [])
            ++ (printAttributes At ++ [" />"])))
    ∧ ("\n" ++ indentStr l ++ "</" ++ k ++ ">")
        ∉ (("\n" ++ indentStr l ++ "<" ++ k)
          :: (" _count=\"" ++ natStr cn ++ "\"")
          :: ((if cn < c then [" _optional=\"true\""] else [])
            ++ (printAttributes At ++ [" />"]))) := by
  refine ⟨?_, ?_, ?_⟩
  · rw [printElements]; simp
  · intro hmem
    rcases List.mem_cons.mp hmem with h | hmem
    · have hh := open_chunk_head l k
      rw [← h] at hh
      exact absurd hh (by decide)
    rcases List.mem_cons.mp hmem with h | hmem
    · have hh := count_chunk_head cn
      rw [← h] at hh
      exact absurd hh (by decide)
    rcases List.mem_append.mp hmem with h | hmem
    · by_cases hlt : cn < c
      · rw [if_pos hlt] at h
        exact absurd (List.mem_singleton.mp h) (by decide)
      · rw [if_neg hlt] at h
        exact (List.not_mem_nil _) h
    rcases List.mem_append.mp hmem with h | h
    · obtain ⟨p, hp⟩ := attr_chunk_mem h
      have hh := attr_chunk_head (a := p.1) (n := p.2)
      rw [← hp] at hh
      exact absurd hh (by decide)
    · exact absurd (List.mem_singleton.mp h) (by decide)
  · intro hmem
    rcases List.mem_cons.mp hmem with h | hmem
    · exact open_ne_close l k h.symm
    rcases List.mem_cons.mp hmem with h | hmem
    · have hh := close_chunk_head l k
      rw [h] at hh
      rw [count_chunk_head cn] at hh
      exact absurd hh (by decide)
    rcases List.mem_append.mp hmem with h | hmem
    · by_cases hlt : cn < c
      · rw [if_pos hlt] at h
        have h2 := List.mem_singleton.mp h
        have hh := close_chunk_head l k
        rw [h2] at hh
        exact absurd hh (by decide)
      · rw [if_neg hlt] at h
        exact (List.not_mem_nil _) h
    rcases List.mem_append.mp hmem with h | h
    · obtain ⟨p, hp⟩ := attr_chunk_mem h
      have hh := close_chunk_head l k
      rw [hp] at hh
      rw [attr_chunk_head (a := p.1) (n := p.2)] at hh
      exact absurd hh (by decide)
    · have h2 := List.mem_singleton.mp h
      have hh := close_chunk_head l k
      rw [h2] at hh
      exact absurd hh (by decide)


/-- C3 (refuted; code bug): the printer's output depends on the order in
which the `(tagName, stat)` pairs are enumerated — the same aggregate map
(two permutations of one association list) rendered in the two orders
yields different output — while the code iterates a Go map with `range`,
whose order is randomized per run; so two runs of Print on the same
finished aggregate tree are not guaranteed identical output. -/
theorem print_output_order_dependent :
    printElements [("a", .mk 1 [] []), ("b", .mk 2 [] [])] 0 3
      ≠ printElements [("b", .mk 2 [] []), ("a", .mk 1 [] [])] 0 3
    ∧ List.Perm [("a", ElementStat.mk 1 [] []), ("b", ElementStat.mk 2 [] [])]
        [("b", ElementStat.mk 2 [] []), ("a", ElementStat.mk 1 [] [])] := by
  constructor
  · simp [printElements, printAttributes, indentStr, natStr, natCharsAux, digitChar]
  · exact List.Perm.swap _ _ _

end Sewik
